import Mathlib

/-!
Verification development for the citation lineage engine of the trace-demo
repository.

The embedding follows the source files:

* `src/db/index.ts` — SQLite query helpers `getChunk`, `getDirectCitations`
  and `getFullLineage` (a recursive CTE over the `citations` table), together
  with the `content`/`citations` schema from `db/schema.sql`.
* `src/actions/lineage.ts` — the server actions `getDirectCitations`
  (enrichment of citation rows with chunk records) and `getFullLineage`
  (tree assembly of the flat lineage rows into a forest of nodes).
* `db/seed.ts` — the seeded demo database (22 chunks, 23 citation edges).

Tables are modelled as lists in stored (rowid / insertion) order.  The
recursive CTE is modelled level by level: SQLite evaluates a `WITH RECURSIVE
… UNION ALL` query by exhaustively deriving rows, so the produced bag of rows
is exactly the set of derivations — every citation path from the root of
length between 1 and 10 contributes one row; the outer `ORDER BY depth,
target_chunk_id` is modelled by a stable insertion sort on that key.

The JavaScript tree assembly mutates shared node objects held in a `Map`
keyed by `chunk_id`; the final object graph is represented here by the map
from chunk id to node record plus the list of root ids (object references
are represented by their unique map key, which is faithful because exactly
one live node object per chunk id remains once the creation loop finishes).
-/

namespace TraceDemo

/-- A row of the `content` table (`Chunk` in `db/index.ts` / `lib/types.ts`).
`stage`: 0 = raw, 1 = first-order insight, 2 = synthesis, 3 = executive.
`type` is the string union `"raw" | "insight"`. -/
structure Chunk where
  chunk_id : String
  text : String
  stage : Nat
  type : String
  author : Option String := none
  created_at : Option String := none
  source_title : Option String := none
  status : Option String := some "published"
  deriving DecidableEq, Repr

/-- A row of the `citations` table (edge list, stored in rowid order). -/
structure CitationRow where
  source_chunk_id : String
  target_chunk_id : String
  citation_marker : Option String := none
  relationship_type : String := "cites"
  deriving DecidableEq, Repr

/-- The projection returned by the db-level `getDirectCitations`
(`SELECT source_chunk_id, target_chunk_id, relationship_type`). -/
structure Citation where
  source_chunk_id : String
  target_chunk_id : String
  relationship_type : String
  deriving DecidableEq, Repr

/-- The SQLite database: `content` keyed by `chunk_id`, `citations` as an
edge list in insertion (rowid) order. -/
structure DB where
  content : List Chunk
  citations : List CitationRow
  deriving Repr

/-- `getChunk` of `db/index.ts`:
`SELECT * FROM content WHERE chunk_id = ?` — `chunk_id` is the primary key,
so the first (unique) matching row is returned, or `null`. -/
def getChunk (db : DB) (chunkId : String) : Option Chunk :=
  db.content.find? (fun c => c.chunk_id == chunkId)

/-- The db-level `getDirectCitations` of `db/index.ts`:
`SELECT source_chunk_id, target_chunk_id, relationship_type FROM citations
WHERE source_chunk_id = ?`.  There is no `ORDER BY`; SQLite serves the rows
via the `idx_citations_source` index, i.e. in rowid (insertion) order within
the fixed `source_chunk_id`. -/
def dbGetDirectCitations (db : DB) (chunkId : String) : List Citation :=
  (db.citations.filter (fun c => c.source_chunk_id == chunkId)).map
    (fun c =>
      { source_chunk_id := c.source_chunk_id
        target_chunk_id := c.target_chunk_id
        relationship_type := c.relationship_type })

/-- A row of the recursive CTE result (`LineageRow` in `db/index.ts`). -/
structure LineageRow where
  target_chunk_id : String
  depth : Nat
  parent_id : String
  deriving DecidableEq, Repr

/-- Base case of the recursive CTE: direct citations of the root, at depth 1,
with the root as `parent_id`. -/
def lineageBase (edges : List CitationRow) (root : String) : List LineageRow :=
  (edges.filter (fun c => c.source_chunk_id == root)).map
    (fun c =>
      { target_chunk_id := c.target_chunk_id
        depth := 1
        parent_id := c.source_chunk_id })

/-- The child rows contributed by one lineage row `l` (the recursive select
joined on `c.source_chunk_id = l.target_chunk_id`), ignoring the depth
guard. -/
def childRows (edges : List CitationRow) (l : LineageRow) : List LineageRow :=
  (edges.filter (fun c => c.source_chunk_id == l.target_chunk_id)).map
    (fun c =>
      { target_chunk_id := c.target_chunk_id
        depth := l.depth + 1
        parent_id := c.source_chunk_id })

/-- One level of the recursive CTE: every frontier row with `depth < 10`
(the `WHERE l.depth < 10` guard) contributes its child rows. -/
def lineageStep (edges : List CitationRow) : List LineageRow → List LineageRow
  | [] => []
  | l :: rest =>
      (if l.depth < 10 then childRows edges l else []) ++ lineageStep edges rest

/-- Exhaustive level-by-level evaluation of the recursive CTE.  Depths are
bounded by 10, so 10 levels starting from the depth-1 base reach a fixpoint:
the result is the full bag of derived rows. -/
def lineageFuel (edges : List CitationRow) : Nat → List LineageRow → List LineageRow
  | 0, _ => []
  | n + 1, frontier => frontier ++ lineageFuel edges n (lineageStep edges frontier)

/-- The unordered bag of rows produced by the recursive CTE of
`getFullLineage` for a given edge set and root. -/
def lineageRows (edges : List CitationRow) (root : String) : List LineageRow :=
  lineageFuel edges 10 (lineageBase edges root)

/-- Lexicographic (code-point) comparison of character lists.  SQLite
compares `TEXT` values under the default BINARY collation, i.e. by their
UTF-8 bytes; UTF-8 byte order coincides with code-point order, so this is a
faithful model of `ORDER BY target_chunk_id`. -/
def charListLe : List Char → List Char → Bool
  | [], _ => true
  | _ :: _, [] => false
  | c :: cs, d :: ds => if c = d then charListLe cs ds else decide (c < d)

/-- String comparison under the BINARY collation. -/
def strLe (a b : String) : Prop :=
  charListLe a.data b.data = true

instance : DecidableRel strLe := fun a b => by
  unfold strLe; infer_instance

/-- The sort key of the outer `SELECT * FROM lineage ORDER BY depth,
target_chunk_id`. -/
def rowLe (a b : LineageRow) : Prop :=
  a.depth < b.depth ∨ (a.depth = b.depth ∧ strLe a.target_chunk_id b.target_chunk_id)

instance : DecidableRel rowLe := fun a b => by
  unfold rowLe; infer_instance

instance : IsTotal LineageRow rowLe where
  total a b := by
    have htot : ∀ xs ys : List Char, charListLe xs ys = true ∨ charListLe ys xs = true := by
      intro xs
      induction xs with
      | nil => intro ys; exact Or.inl rfl
      | cons c cs ih =>
        intro ys
        cases ys with
        | nil => exact Or.inr rfl
        | cons d ds =>
          by_cases h : c = d
          · subst h
            simpa [charListLe] using ih ds
          · have h2 : d ≠ c := fun e => h e.symm
            simp only [charListLe, if_neg h, if_neg h2, decide_eq_true_eq]
            exact lt_or_gt_of_ne h
    unfold rowLe
    rcases Nat.lt_trichotomy a.depth b.depth with h | h | h
    · exact Or.inl (Or.inl h)
    · rcases htot a.target_chunk_id.data b.target_chunk_id.data with h2 | h2
      · exact Or.inl (Or.inr ⟨h, h2⟩)
      · exact Or.inr (Or.inr ⟨h.symm, h2⟩)
    · exact Or.inr (Or.inl h)

instance : IsTrans LineageRow rowLe where
  trans a b c hab hbc := by
    have htr : ∀ xs ys zs : List Char, charListLe xs ys = true →
        charListLe ys zs = true → charListLe xs zs = true := by
      intro xs
      induction xs with
      | nil => intro ys zs _ _; rfl
      | cons x xs2 ih =>
        intro ys zs hxy hyz
        cases ys with
        | nil => simp [charListLe] at hxy
        | cons y ys2 =>
          cases zs with
          | nil => simp [charListLe] at hyz
          | cons z zs2 =>
            by_cases hcd : x = y
            · subst hcd
              by_cases hce : x = z
              · subst hce
                simp only [charListLe, if_pos rfl] at hxy hyz ⊢
                exact ih ys2 zs2 hxy hyz
              · simp only [charListLe, if_pos rfl] at hxy
                simp only [charListLe, if_neg hce] at hyz ⊢
                exact hyz
            · by_cases hde : y = z
              · subst hde
                simp only [charListLe, if_neg hcd] at hxy ⊢
                exact hxy
              · simp only [charListLe, if_neg hcd, decide_eq_true_eq] at hxy
                simp only [charListLe, if_neg hde, decide_eq_true_eq] at hyz
                have hce : x < z := lt_trans hxy hyz
                simp only [charListLe, if_neg (ne_of_lt hce), decide_eq_true_eq]
                exact hce
    unfold rowLe at *
    rcases hab with h1 | ⟨h1, h1b⟩
    · rcases hbc with h2 | ⟨h2, _⟩
      · exact Or.inl (h1.trans h2)
      · exact Or.inl (h2 ▸ h1)
    · rcases hbc with h2 | ⟨h2, h2b⟩
      · exact Or.inl (h1 ▸ h2)
      · exact Or.inr ⟨h1.trans h2, htr _ _ _ h1b h2b⟩

/-- The db-level `getFullLineage` of `db/index.ts`: the recursive CTE
followed by `ORDER BY depth, target_chunk_id`. -/
def dbGetFullLineage (db : DB) (chunkId : String) : List LineageRow :=
  List.insertionSort rowLe (lineageRows db.citations chunkId)

/-! ### Server actions (`src/actions/lineage.ts`) -/

/-- The server action `getDirectCitations`: a `for` loop over the citation
rows that pushes the looked-up chunk when it exists, modelled as a left fold
with a push accumulator. -/
def serverGetDirectCitations (db : DB) (chunkId : String) : List Chunk :=
  (dbGetDirectCitations db chunkId).foldl
    (fun chunks citation =>
      match getChunk db citation.target_chunk_id with
      | some chunk => chunks ++ [chunk]
      | none => chunks)
    []

/-- A `LineageNode` object of `lib/types.ts` as it lives in the
`nodesByChunkId` map: `children` holds the chunk ids of the child node
objects (each id denotes the unique live node object for that chunk id). -/
structure LineageNodeRec where
  chunk_id : String
  depth : Nat
  chunk : Chunk
  children : List String
  deriving DecidableEq, Repr

/-- `Map.get`: the value bound to the first (unique) occurrence of the key. -/
def assocGet : List (String × LineageNodeRec) → String → Option LineageNodeRec
  | [], _ => none
  | p :: ps, k => if p.1 == k then some p.2 else assocGet ps k

/-- `Map.set`: replace the binding in place when the key is present,
otherwise append a new binding. -/
def assocSet : List (String × LineageNodeRec) → String → LineageNodeRec → List (String × LineageNodeRec)
  | [], k, v => [(k, v)]
  | p :: ps, k, v => if p.1 == k then (k, v) :: ps else p :: assocSet ps k v

/-- One iteration of the node-creation loop of the server `getFullLineage`:
when the row's target chunk resolves, `nodesByChunkId.set(target, {chunk_id,
depth, chunk, children: []})` — overwriting any node created for the same
chunk id by an earlier row.  (The intermediate `chunkMap` caches
`dbGetChunk(row.target_chunk_id)` per target, so reading it inside the loop
equals the direct lookup.) -/
def buildStep (db : DB) (nodes : List (String × LineageNodeRec)) (row : LineageRow) :
    List (String × LineageNodeRec) :=
  match getChunk db row.target_chunk_id with
  | none => nodes
  | some chunk =>
      assocSet nodes row.target_chunk_id
        { chunk_id := row.target_chunk_id
          depth := row.depth
          chunk := chunk
          children := [] }

/-- The node-creation loop of the server `getFullLineage`: `buildStep` over
the rows in order, starting from the empty map. -/
def buildNodes (db : DB) (rows : List LineageRow) : List (String × LineageNodeRec) :=
  rows.foldl (buildStep db) []

/-- `parent.children.push(node)`: append the child's id to the children list
of the node bound to `k` (no effect when `k` is unbound). -/
def appendChild (nodes : List (String × LineageNodeRec)) (k childId : String) :
    List (String × LineageNodeRec) :=
  nodes.map (fun p =>
    if p.1 == k then (p.1, { p.2 with children := p.2.children ++ [childId] }) else p)

/-- The object graph returned by the server `getFullLineage`: the
`rootNodes` array (as ids) plus the node store that interprets every id.
The JavaScript return value is exactly the `rootIds` list of (references
to) the node objects described by `nodes`. -/
structure LineageForest where
  rootIds : List String
  nodes : List (String × LineageNodeRec)
  deriving DecidableEq, Repr

/-- One iteration of the parent-child linking loop of the server
`getFullLineage`: skip the row when its target has no node; push the node
onto `rootNodes` when `row.depth === 1`; otherwise push it onto the
children of the node bound to `row.parent_id` when that node exists. -/
def linkStep (st : LineageForest) (row : LineageRow) : LineageForest :=
  match assocGet st.nodes row.target_chunk_id with
  | none => st
  | some _ =>
      if row.depth = 1 then
        { st with rootIds := st.rootIds ++ [row.target_chunk_id] }
      else
        match assocGet st.nodes row.parent_id with
        | none => st
        | some _ =>
            { st with nodes := appendChild st.nodes row.parent_id row.target_chunk_id }

/-- The parent-child linking loop of the server `getFullLineage`:
`linkStep` over the rows in order, starting from the created nodes and an
empty root list. -/
def linkRows (nodes0 : List (String × LineageNodeRec)) (rows : List LineageRow) :
    LineageForest :=
  rows.foldl linkStep { rootIds := [], nodes := nodes0 }

/-- The server action `getFullLineage` of `src/actions/lineage.ts`: fetch
the flat rows, create the nodes, then link parents and children. -/
def serverGetFullLineage (db : DB) (chunkId : String) : LineageForest :=
  let rows := dbGetFullLineage db chunkId
  linkRows (buildNodes db rows) rows

/-- The chunk records carried by the root nodes of the forest (the depth-1
level of the assembled tree, in root order). -/
def rootChunks (f : LineageForest) : List Chunk :=
  f.rootIds.filterMap (fun i => (assocGet f.nodes i).map (fun n => n.chunk))

/-! ### Edge-store write path -/

/-- The write-path error taxonomy of spec §7 (the repository exposes no
write path in code; see `addEdge`). -/
inductive EdgeError where
  | invalidReference
  | rawChunkCites
  deriving DecidableEq, Repr

/-- Modelled from the spec: §4.2 `addEdge(source_id, target_id, marker)` —
the repository has no edge-write implementation under `src/` (the seed
script inserts rows into `citations` directly), so the operation is
modelled from the spec's words: it fails with `InvalidReferenceError` when
either id is absent from the content store, fails with `RawChunkCitesError`
when the source resolves to a stage-0 chunk, and otherwise appends the edge
(default `relationship_type` "cites"). -/
def addEdge (db : DB) (sourceId targetId marker : String) : Except EdgeError DB :=
  match getChunk db sourceId, getChunk db targetId with
  | none, _ => .error .invalidReference
  | some _, none => .error .invalidReference
  | some s, some _ =>
      if s.stage = 0 then .error .rawChunkCites
      else
        .ok { db with
              citations := db.citations ++
                [{ source_chunk_id := sourceId
                   target_chunk_id := targetId
                   citation_marker := some marker }] }

/-! ### Concrete test databases -/

/-- A minimal chunk used as test input (`type` per the stage convention). -/
def testChunk (id : String) (stage : Nat) : Chunk :=
  { chunk_id := id
    text := id
    stage := stage
    type := if stage = 0 then "raw" else "insight" }

/-- A citation edge used as test input. -/
def testEdge (s t : String) : CitationRow :=
  { source_chunk_id := s, target_chunk_id := t }

/-- A database with a citation cycle: `a` cites `b` and `b` cites `a`. -/
def cycDb : DB :=
  { content := [testChunk "a" 1, testChunk "b" 1]
    citations := [testEdge "a" "b", testEdge "b" "a"] }

/-- A database in which chunk `z` is reachable from root `x` both directly
and via the intermediate chunk `y`. -/
def mergeDb : DB :=
  { content := [testChunk "x" 2, testChunk "y" 1, testChunk "z" 0]
    citations := [testEdge "x" "z", testEdge "x" "y", testEdge "y" "z"] }

/-- A database with a dangling reference: `a` cites `b`, `b` cites `c`, but
`b` has no row in the content store while `c` does. -/
def dangDb : DB :=
  { content := [testChunk "a" 2, testChunk "c" 0]
    citations := [testEdge "a" "b", testEdge "b" "c"] }

/-- A database whose citation rows for `x` are stored in an order that
differs from the alphabetical order of their targets. -/
def orderDb : DB :=
  { content := [testChunk "x" 1, testChunk "a" 0, testChunk "b" 0]
    citations := [testEdge "x" "b", testEdge "x" "a"] }


/-! ### The seeded demo database (`db/seed.ts`) -/

/-- The chunk rows inserted by the seed script (10 stage-0 raw chunks,
8 stage-1 insights, 4 stage-2 synthesis insights), in insertion order,
each with status "published". -/
def seedContent : List Chunk :=
  [{ chunk_id := "raw_market_survey_chunk_1",
       text := "Q3 2024 market survey reveals 78% adoption rate of AI-powered analytics tools across enterprise segments, up from 52% in Q2 2024. Survey methodology: 500 enterprise decision-makers across technology, finance, and healthcare sectors.",
       stage := 0,
       type := "raw",
       author := none,
       created_at := some "2024-10-15T09:00:00Z",
       source_title := some "Enterprise AI Adoption Survey Q3 2024",
       status := some "published" },
   { chunk_id := "raw_competitor_report_chunk_2",
       text := "Competitor analysis indicates that CompanyX holds 45% market share in the AI analytics segment, followed by CompanyY at 28% and emerging players at 27%. CompanyX strength lies in enterprise integration capabilities.",
       stage := 0,
       type := "raw",
       author := none,
       created_at := some "2024-10-18T14:30:00Z",
       source_title := some "Market Intelligence Report: AI Analytics Vendors",
       status := some "published" },
   { chunk_id := "raw_customer_feedback_chunk_3",
       text := "Customer satisfaction scores show 32% year-over-year improvement, with NPS increasing from 42 to 56. Primary satisfaction drivers: ease of integration (89%), accuracy of insights (86%), and support responsiveness (82%).",
       stage := 0,
       type := "raw",
       author := none,
       created_at := some "2024-10-20T11:15:00Z",
       source_title := some "Customer Satisfaction Analysis Q3 2024",
       status := some "published" },
   { chunk_id := "raw_industry_analysis_chunk_4",
       text := "Industry forecast projects 18% CAGR for AI analytics market through 2028, driven by increasing data volumes, regulatory compliance requirements, and competitive pressure for data-driven decision making.",
       stage := 0,
       type := "raw",
       author := none,
       created_at := some "2024-10-22T08:45:00Z",
       source_title := some "Gartner Industry Forecast 2024-2028",
       status := some "published" },
   { chunk_id := "raw_financial_data_chunk_5",
       text := "Financial performance: Revenue growth of 24% YoY in Q3 2024, reaching $145M. EBITDA margin improved from 18% to 22%. Customer acquisition cost decreased 15% while lifetime value increased 31%.",
       stage := 0,
       type := "raw",
       author := none,
       created_at := some "2024-10-25T16:00:00Z",
       source_title := some "Q3 2024 Financial Report",
       status := some "published" },
   { chunk_id := "raw_tech_trends_chunk_6",
       text := "Technology adoption patterns show 67% of enterprises now using cloud-based analytics platforms, up from 45% in 2023. Migration drivers: scalability (91%), cost reduction (78%), and remote workforce enablement (72%).",
       stage := 0,
       type := "raw",
       author := none,
       created_at := some "2024-10-26T10:00:00Z",
       source_title := some "Cloud Analytics Adoption Report 2024",
       status := some "published" },
   { chunk_id := "raw_pricing_analysis_chunk_7",
       text := "Pricing strategy analysis reveals average contract value increased 18% YoY to $285K annually. Enterprise tier adoption grew 34%, while SMB segment showed 12% growth. Upsell rate reached 41% of existing customer base.",
       stage := 0,
       type := "raw",
       author := none,
       created_at := some "2024-10-27T13:20:00Z",
       source_title := some "Pricing and Revenue Analysis Q3 2024",
       status := some "published" },
   { chunk_id := "raw_security_compliance_chunk_8",
       text := "Security audit reports 99.97% uptime and zero critical security incidents in Q3 2024. SOC 2 Type II certified, GDPR compliant, and ISO 27001 certified. Data encryption at rest and in transit using AES-256.",
       stage := 0,
       type := "raw",
       author := none,
       created_at := some "2024-10-28T09:30:00Z",
       source_title := some "Security and Compliance Audit Q3 2024",
       status := some "published" },
   { chunk_id := "raw_user_engagement_chunk_9",
       text := "User engagement metrics: Daily active users increased 42% QoQ, average session duration up 28% to 34 minutes, and feature adoption rate at 73% for newly released capabilities. Power users (20% of base) generate 68% of queries.",
       stage := 0,
       type := "raw",
       author := none,
       created_at := some "2024-10-29T15:45:00Z",
       source_title := some "Product Analytics Dashboard Q3 2024",
       status := some "published" },
   { chunk_id := "raw_market_expansion_chunk_10",
       text := "Geographic expansion analysis: North America 52% of revenue, EMEA 31%, APAC 17%. Fastest growth in APAC (+89% YoY), driven by Singapore, Japan, and Australia markets. Regulatory approval obtained in 8 new countries.",
       stage := 0,
       type := "raw",
       author := none,
       created_at := some "2024-10-30T11:00:00Z",
       source_title := some "Geographic Market Analysis 2024",
       status := some "published" },
   { chunk_id := "ins_market_trends_chunk_1",
       text := "Market adoption has accelerated significantly, with enterprise AI analytics adoption reaching 78% in Q3 2024[1]. This 26 percentage point increase from Q2 indicates rapid mainstream adoption beyond early adopters. The growth is particularly pronounced in regulated industries where data-driven compliance has become mandatory.",
       stage := 1,
       type := "insight",
       author := some "sarah.chen@consulting.com",
       created_at := some "2024-10-28T10:30:00Z",
       source_title := none,
       status := some "published" },
   { chunk_id := "ins_competitive_position_chunk_2",
       text := "Current market structure shows clear leader-challenger dynamics, with CompanyX commanding 45% share through superior enterprise integration[1]. However, the 27% held by emerging players suggests market consolidation pressure and potential disruption risk from specialized entrants.",
       stage := 1,
       type := "insight",
       author := some "michael.rodriguez@consulting.com",
       created_at := some "2024-10-29T14:20:00Z",
       source_title := none,
       status := some "published" },
   { chunk_id := "ins_customer_sentiment_chunk_3",
       text := "Customer satisfaction improvements of 32% YoY with NPS rising to 56[1] signal strong product-market fit. Integration ease emerges as the dominant value driver (89% satisfaction), indicating that technical compatibility outweighs pure analytical capabilities in purchase decisions.",
       stage := 1,
       type := "insight",
       author := some "sarah.chen@consulting.com",
       created_at := some "2024-10-30T09:15:00Z",
       source_title := none,
       status := some "published" },
   { chunk_id := "ins_financial_performance_chunk_4",
       text := "Financial metrics demonstrate healthy unit economics with 24% revenue growth and margin expansion from 18% to 22%[1]. The simultaneous 15% CAC reduction and 31% LTV increase indicates improving operational efficiency and product stickiness.",
       stage := 1,
       type := "insight",
       author := some "james.wilson@consulting.com",
       created_at := some "2024-10-31T11:45:00Z",
       source_title := none,
       status := some "published" },
   { chunk_id := "ins_cloud_migration_chunk_5",
       text := "Cloud platform adoption reached 67% in 2024, up from 45% in 2023[1], representing a fundamental shift in enterprise infrastructure strategy. The primary migration drivers—scalability (91%), cost reduction (78%), and remote workforce enablement (72%)—align with broader digital transformation priorities.",
       stage := 1,
       type := "insight",
       author := some "david.park@consulting.com",
       created_at := some "2024-11-01T10:00:00Z",
       source_title := none,
       status := some "published" },
   { chunk_id := "ins_pricing_strategy_chunk_6",
       text := "Revenue per customer increased 18% YoY to $285K annually[1], driven primarily by enterprise tier growth of 34%. The 41% upsell rate among existing customers indicates strong value realization and expansion opportunities within the installed base.",
       stage := 1,
       type := "insight",
       author := some "maria.gonzalez@consulting.com",
       created_at := some "2024-11-01T14:30:00Z",
       source_title := none,
       status := some "published" },
   { chunk_id := "ins_product_engagement_chunk_7",
       text := "User engagement patterns show 42% QoQ growth in daily active users with session duration increasing to 34 minutes[1]. The concentration of activity among power users (20% generating 68% of queries) suggests successful cultivation of high-value user segments.",
       stage := 1,
       type := "insight",
       author := some "robert.kim@consulting.com",
       created_at := some "2024-11-02T09:20:00Z",
       source_title := none,
       status := some "published" },
   { chunk_id := "ins_geographic_expansion_chunk_8",
       text := "Geographic revenue distribution shows mature North American market (52%) balanced by high-growth APAC region (+89% YoY)[1]. Regulatory approvals in 8 new countries and strong traction in Singapore, Japan, and Australia markets validate international expansion strategy.",
       stage := 1,
       type := "insight",
       author := some "emily.wong@consulting.com",
       created_at := some "2024-11-02T13:15:00Z",
       source_title := none,
       status := some "published" },
   { chunk_id := "ins_strategic_analysis_chunk_1",
       text := "The convergence of strong market adoption (78%)[1] and improving customer satisfaction (32% increase)[2] suggests sustainable competitive positioning. However, direct competitor analysis[3] indicates vulnerability to specialized entrants in the 27% \"emerging player\" segment, particularly if they solve the integration challenge that drives current satisfaction.",
       stage := 2,
       type := "insight",
       author := some "elena.popov@consulting.com",
       created_at := some "2024-11-03T13:30:00Z",
       source_title := none,
       status := some "published" },
   { chunk_id := "ins_growth_opportunity_chunk_2",
       text := "The 18% CAGR industry forecast[1] combined with demonstrated financial performance (24% revenue growth)[2] and strong customer retention[3] creates a favorable growth environment. Geographic expansion showing 89% growth in APAC[4] indicates successful international scaling capabilities.",
       stage := 2,
       type := "insight",
       author := some "david.kim@consulting.com",
       created_at := some "2024-11-03T15:00:00Z",
       source_title := none,
       status := some "published" },
   { chunk_id := "ins_product_market_fit_chunk_3",
       text := "Product engagement patterns reveal strong value realization, with 42% DAU growth[1] and 41% upsell rates[2]. Cloud migration trends (67% adoption)[3] align with our platform architecture, while enterprise security requirements[4] match our SOC 2 Type II and ISO 27001 certifications.",
       stage := 2,
       type := "insight",
       author := some "lisa.thompson@consulting.com",
       created_at := some "2024-11-04T10:20:00Z",
       source_title := none,
       status := some "published" },
   { chunk_id := "ins_competitive_moat_chunk_4",
       text := "Competitive positioning shows defensible advantages: integration capabilities drive 89% satisfaction scores[1], pricing power evidenced by 18% ACV increase[2], and enterprise credibility from security certifications[3]. The 45% market share leader position[4] provides scale advantages in R&D and sales efficiency.",
       stage := 2,
       type := "insight",
       author := some "alex.martinez@consulting.com",
       created_at := some "2024-11-04T14:45:00Z",
       source_title := none,
       status := some "published" }]

/-- The citation edges inserted by the seed script, in insertion order
(`relationship_type` is always "cites"). -/
def seedCitations : List CitationRow :=
  [{ source_chunk_id := "ins_market_trends_chunk_1",
       target_chunk_id := "raw_market_survey_chunk_1",
       citation_marker := some "[1]",
       relationship_type := "cites" },
   { source_chunk_id := "ins_competitive_position_chunk_2",
       target_chunk_id := "raw_competitor_report_chunk_2",
       citation_marker := some "[1]",
       relationship_type := "cites" },
   { source_chunk_id := "ins_customer_sentiment_chunk_3",
       target_chunk_id := "raw_customer_feedback_chunk_3",
       citation_marker := some "[1]",
       relationship_type := "cites" },
   { source_chunk_id := "ins_financial_performance_chunk_4",
       target_chunk_id := "raw_financial_data_chunk_5",
       citation_marker := some "[1]",
       relationship_type := "cites" },
   { source_chunk_id := "ins_cloud_migration_chunk_5",
       target_chunk_id := "raw_tech_trends_chunk_6",
       citation_marker := some "[1]",
       relationship_type := "cites" },
   { source_chunk_id := "ins_pricing_strategy_chunk_6",
       target_chunk_id := "raw_pricing_analysis_chunk_7",
       citation_marker := some "[1]",
       relationship_type := "cites" },
   { source_chunk_id := "ins_product_engagement_chunk_7",
       target_chunk_id := "raw_user_engagement_chunk_9",
       citation_marker := some "[1]",
       relationship_type := "cites" },
   { source_chunk_id := "ins_geographic_expansion_chunk_8",
       target_chunk_id := "raw_market_expansion_chunk_10",
       citation_marker := some "[1]",
       relationship_type := "cites" },
   { source_chunk_id := "ins_strategic_analysis_chunk_1",
       target_chunk_id := "ins_market_trends_chunk_1",
       citation_marker := some "[1]",
       relationship_type := "cites" },
   { source_chunk_id := "ins_strategic_analysis_chunk_1",
       target_chunk_id := "ins_customer_sentiment_chunk_3",
       citation_marker := some "[2]",
       relationship_type := "cites" },
   { source_chunk_id := "ins_strategic_analysis_chunk_1",
       target_chunk_id := "raw_competitor_report_chunk_2",
       citation_marker := some "[3]",
       relationship_type := "cites" },
   { source_chunk_id := "ins_growth_opportunity_chunk_2",
       target_chunk_id := "raw_industry_analysis_chunk_4",
       citation_marker := some "[1]",
       relationship_type := "cites" },
   { source_chunk_id := "ins_growth_opportunity_chunk_2",
       target_chunk_id := "ins_financial_performance_chunk_4",
       citation_marker := some "[2]",
       relationship_type := "cites" },
   { source_chunk_id := "ins_growth_opportunity_chunk_2",
       target_chunk_id := "ins_customer_sentiment_chunk_3",
       citation_marker := some "[3]",
       relationship_type := "cites" },
   { source_chunk_id := "ins_growth_opportunity_chunk_2",
       target_chunk_id := "ins_geographic_expansion_chunk_8",
       citation_marker := some "[4]",
       relationship_type := "cites" },
   { source_chunk_id := "ins_product_market_fit_chunk_3",
       target_chunk_id := "ins_product_engagement_chunk_7",
       citation_marker := some "[1]",
       relationship_type := "cites" },
   { source_chunk_id := "ins_product_market_fit_chunk_3",
       target_chunk_id := "ins_pricing_strategy_chunk_6",
       citation_marker := some "[2]",
       relationship_type := "cites" },
   { source_chunk_id := "ins_product_market_fit_chunk_3",
       target_chunk_id := "raw_tech_trends_chunk_6",
       citation_marker := some "[3]",
       relationship_type := "cites" },
   { source_chunk_id := "ins_product_market_fit_chunk_3",
       target_chunk_id := "raw_security_compliance_chunk_8",
       citation_marker := some "[4]",
       relationship_type := "cites" },
   { source_chunk_id := "ins_competitive_moat_chunk_4",
       target_chunk_id := "ins_customer_sentiment_chunk_3",
       citation_marker := some "[1]",
       relationship_type := "cites" },
   { source_chunk_id := "ins_competitive_moat_chunk_4",
       target_chunk_id := "raw_pricing_analysis_chunk_7",
       citation_marker := some "[2]",
       relationship_type := "cites" },
   { source_chunk_id := "ins_competitive_moat_chunk_4",
       target_chunk_id := "raw_security_compliance_chunk_8",
       citation_marker := some "[3]",
       relationship_type := "cites" },
   { source_chunk_id := "ins_competitive_moat_chunk_4",
       target_chunk_id := "raw_competitor_report_chunk_2",
       citation_marker := some "[4]",
       relationship_type := "cites" }]

/-- The seeded demo database. -/
def seedDb : DB :=
  { content := seedContent, citations := seedCitations }

/-- Written from the claim wording for C10: the enriched chunk records of
the citation rows, in stored order, each citation whose target chunk id
does not resolve being omitted without affecting the rest. -/
def enrichedChunksInStoredOrder (db : DB) : List Citation → List Chunk
  | [] => []
  | c :: rest =>
      match getChunk db c.target_chunk_id with
      | some chunk => chunk :: enrichedChunksInStoredOrder db rest
      | none => enrichedChunksInStoredOrder db rest

/-- Soundness of a node map: every bound node carries its own key as
`chunk_id`, the chunk record stored for that key in the content store, and
an empty children list (the state in which the creation loop leaves every
node). -/
def nodesSound (db : DB) (m : List (String × LineageNodeRec)) : Prop :=
  ∀ t nr, assocGet m t = some nr →
    nr.chunk_id = t ∧ getChunk db t = some nr.chunk ∧ nr.children = []

/-! ### Lemmas about the recursive CTE -/

theorem mem_lineageBase {edges : List CitationRow} {root : String} {r : LineageRow} :
    r ∈ lineageBase edges root ↔
      ∃ c ∈ edges, c.source_chunk_id = root ∧
        r = { target_chunk_id := c.target_chunk_id, depth := 1,
              parent_id := c.source_chunk_id } := by
  simp only [lineageBase, List.mem_map, List.mem_filter, beq_iff_eq]
  constructor
  · rintro ⟨c, ⟨hc, hs⟩, hr⟩
    exact ⟨c, hc, hs, hr.symm⟩
  · rintro ⟨c, hc, hs, hr⟩
    exact ⟨c, ⟨hc, hs⟩, hr.symm⟩

theorem mem_childRows {edges : List CitationRow} {l r : LineageRow} :
    r ∈ childRows edges l ↔
      ∃ c ∈ edges, c.source_chunk_id = l.target_chunk_id ∧
        r = { target_chunk_id := c.target_chunk_id, depth := l.depth + 1,
              parent_id := c.source_chunk_id } := by
  simp only [childRows, List.mem_map, List.mem_filter, beq_iff_eq]
  constructor
  · rintro ⟨c, ⟨hc, hs⟩, hr⟩
    exact ⟨c, hc, hs, hr.symm⟩
  · rintro ⟨c, hc, hs, hr⟩
    exact ⟨c, ⟨hc, hs⟩, hr.symm⟩

theorem depth_one_of_mem_lineageBase {edges : List CitationRow} {root : String}
    {r : LineageRow} (h : r ∈ lineageBase edges root) : r.depth = 1 := by
  rcases mem_lineageBase.mp h with ⟨c, _, _, hr⟩
  rw [hr]

theorem depth_of_mem_childRows {edges : List CitationRow} {l r : LineageRow}
    (h : r ∈ childRows edges l) : r.depth = l.depth + 1 := by
  rcases mem_childRows.mp h with ⟨c, _, _, hr⟩
  rw [hr]

theorem mem_lineageStep {edges : List CitationRow} {front : List LineageRow}
    {r : LineageRow} :
    r ∈ lineageStep edges front ↔
      ∃ l ∈ front, l.depth < 10 ∧ r ∈ childRows edges l := by
  induction front with
  | nil => simp [lineageStep]
  | cons l rest ih =>
    simp only [lineageStep, List.mem_append, ih, List.mem_cons]
    constructor
    · rintro (hr | ⟨l', hl', hd, hc⟩)
      · by_cases hd : l.depth < 10
        · rw [if_pos hd] at hr
          exact ⟨l, Or.inl rfl, hd, hr⟩
        · rw [if_neg hd] at hr
          simp at hr
      · exact ⟨l', Or.inr hl', hd, hc⟩
    · rintro ⟨l', hl' | hl', hd, hc⟩
      · subst hl'
        exact Or.inl (by rw [if_pos hd]; exact hc)
      · exact Or.inr ⟨l', hl', hd, hc⟩

theorem mem_lineageFuel_succ {edges : List CitationRow} {n : Nat}
    {front : List LineageRow} {r : LineageRow} :
    r ∈ lineageFuel edges (n + 1) front ↔
      r ∈ front ∨ r ∈ lineageFuel edges n (lineageStep edges front) := by
  simp [lineageFuel]

theorem lineageFuel_depth_bounds {edges : List CitationRow} :
    ∀ (n : Nat) (front : List LineageRow),
      (∀ l ∈ front, 1 ≤ l.depth ∧ l.depth ≤ 10) →
      ∀ r ∈ lineageFuel edges n front, 1 ≤ r.depth ∧ r.depth ≤ 10 := by
  intro n
  induction n with
  | zero => intro front _ r hr; simp [lineageFuel] at hr
  | succ n ih =>
    intro front hfront r hr
    rcases mem_lineageFuel_succ.mp hr with hr | hr
    · exact hfront r hr
    · refine ih _ ?_ r hr
      intro l hl
      rcases mem_lineageStep.mp hl with ⟨l', _, hd, hc⟩
      have := depth_of_mem_childRows hc
      omega

theorem lineageFuel_depth_lower {edges : List CitationRow} {k : Nat} :
    ∀ (n : Nat) (front : List LineageRow),
      (∀ l ∈ front, k ≤ l.depth) →
      ∀ r ∈ lineageFuel edges n front, k ≤ r.depth := by
  intro n
  induction n with
  | zero => intro front _ r hr; simp [lineageFuel] at hr
  | succ n ih =>
    intro front hfront r hr
    rcases mem_lineageFuel_succ.mp hr with hr | hr
    · exact hfront r hr
    · refine ih _ ?_ r hr
      intro l hl
      rcases mem_lineageStep.mp hl with ⟨l', hl', _, hc⟩
      have := depth_of_mem_childRows hc
      have := hfront l' hl'
      omega

theorem lineageRows_depth_bounds {edges : List CitationRow} {root : String}
    {r : LineageRow} (h : r ∈ lineageRows edges root) :
    1 ≤ r.depth ∧ r.depth ≤ 10 := by
  refine lineageFuel_depth_bounds 10 _ ?_ r h
  intro l hl
  rcases mem_lineageBase.mp hl with ⟨c, _, _, hr⟩
  rw [hr]
  exact ⟨Nat.le_refl 1, Nat.le_of_lt (by norm_num)⟩

theorem mem_dbGetFullLineage {db : DB} {root : String} {r : LineageRow} :
    r ∈ dbGetFullLineage db root ↔ r ∈ lineageRows db.citations root :=
  (List.perm_insertionSort rowLe (lineageRows db.citations root)).mem_iff

theorem lineageFuel_parent_link {edges : List CitationRow} :
    ∀ (n : Nat) (front : List LineageRow), ∀ r ∈ lineageFuel edges n front,
      r ∈ front ∨ ∃ r' ∈ lineageFuel edges n front,
        r'.target_chunk_id = r.parent_id ∧ r'.depth + 1 = r.depth := by
  intro n
  induction n with
  | zero => intro front r hr; simp [lineageFuel] at hr
  | succ n ih =>
    intro front r hr
    rcases mem_lineageFuel_succ.mp hr with hr | hr
    · exact Or.inl hr
    · rcases ih _ r hr with hstep | ⟨r', hr', ht, hd⟩
      · rcases mem_lineageStep.mp hstep with ⟨l, hl, _, hc⟩
        rcases mem_childRows.mp hc with ⟨c, _, hs, hrEq⟩
        subst hrEq
        exact Or.inr ⟨l, mem_lineageFuel_succ.mpr (Or.inl hl), hs.symm, rfl⟩
      · exact Or.inr ⟨r', mem_lineageFuel_succ.mpr (Or.inr hr'), ht, hd⟩

/-! ### Claims about the db-level `getFullLineage` -/

theorem lineageFuel_nil (edges : List CitationRow) :
    ∀ n : Nat, lineageFuel edges n [] = [] := by
  intro n
  induction n with
  | zero => rfl
  | succ n ih =>
    show [] ++ lineageFuel edges n (lineageStep edges []) = []
    rw [List.nil_append]
    exact ih

theorem lineageStep_eq_nil {edges : List CitationRow} :
    ∀ {front : List LineageRow}, (∀ r ∈ front, 10 ≤ r.depth) →
      lineageStep edges front = [] := by
  intro front
  induction front with
  | nil => intro _; rfl
  | cons l rest ih =>
    intro h
    show (if l.depth < 10 then childRows edges l else []) ++ lineageStep edges rest = []
    rw [if_neg (by have := h l (List.mem_cons_self l rest); omega), List.nil_append]
    exact ih (fun r hr => h r (List.mem_cons_of_mem l hr))

/-- The model evaluates the recursive CTE with 10 rounds of expansion; this
is a fixpoint: any larger fuel yields the same bag of rows, so the model
truncates exactly where the `WHERE l.depth < 10` guard does and nowhere
else. -/
theorem lineageRows_fuel_sufficient (edges : List CitationRow) (root : String) :
    ∀ n : Nat, 10 ≤ n → lineageFuel edges n (lineageBase edges root) =
      lineageRows edges root := by
  have key : ∀ (k : Nat) (f : List LineageRow), (∀ r ∈ f, 10 ≤ r.depth + k) →
      ∀ n1 n2 : Nat, k + 1 ≤ n1 → k + 1 ≤ n2 →
      lineageFuel edges n1 f = lineageFuel edges n2 f := by
    intro k
    induction k with
    | zero =>
      intro f hf n1 n2 h1 h2
      obtain ⟨a, rfl⟩ : ∃ a, n1 = a + 1 := ⟨n1 - 1, by omega⟩
      obtain ⟨b, rfl⟩ : ∃ b, n2 = b + 1 := ⟨n2 - 1, by omega⟩
      show f ++ lineageFuel edges a (lineageStep edges f) =
        f ++ lineageFuel edges b (lineageStep edges f)
      rw [lineageStep_eq_nil (fun r hr => by have := hf r hr; omega),
        lineageFuel_nil, lineageFuel_nil]
    | succ k ih =>
      intro f hf n1 n2 h1 h2
      obtain ⟨a, rfl⟩ : ∃ a, n1 = a + 1 := ⟨n1 - 1, by omega⟩
      obtain ⟨b, rfl⟩ : ∃ b, n2 = b + 1 := ⟨n2 - 1, by omega⟩
      show f ++ lineageFuel edges a (lineageStep edges f) =
        f ++ lineageFuel edges b (lineageStep edges f)
      have hstep : ∀ r ∈ lineageStep edges f, 10 ≤ r.depth + k := by
        intro r hr
        rcases mem_lineageStep.mp hr with ⟨l, hl, _, hc⟩
        have := depth_of_mem_childRows hc
        have := hf l hl
        omega
      rw [ih (lineageStep edges f) hstep a b (by omega) (by omega)]
  intro n hn
  refine key 9 (lineageBase edges root) ?_ n 10 (by omega) (by omega)
  intro r hr
  rw [depth_one_of_mem_lineageBase hr]

/-- C2: every row returned by the database-level `getFullLineage` has depth
between 1 and 10 inclusive — the recursive select only expands rows with
`depth < 10`, so deeper branches are silently truncated and the query
returns a plain (error-free) list for every database and root. -/
theorem C2_depth_bounds :
    ∀ (db : DB) (root : String), ∀ r ∈ dbGetFullLineage db root,
      1 ≤ r.depth ∧ r.depth ≤ 10 :=
  fun _ _ _ hr => lineageRows_depth_bounds (mem_dbGetFullLineage.mp hr)

/-- Witness for C2 at a concrete database and row. -/
theorem C2_depth_bounds_witness :
    1 ≤ ({ target_chunk_id := "b", depth := 1, parent_id := "a" } : LineageRow).depth ∧
      ({ target_chunk_id := "b", depth := 1, parent_id := "a" } : LineageRow).depth ≤ 10 :=
  C2_depth_bounds cycDb "a"
    { target_chunk_id := "b", depth := 1, parent_id := "a" } (by decide)

/-- C3: `getFullLineage` is a total, structurally bounded computation, so it
terminates on every edge set; on the two-cycle `a ↔ b` it returns exactly
the rows of depth 1 through 10, i.e. the result truncated at the maximum
depth of 10. -/
theorem C3_cycle_truncated :
    (∀ (db : DB) (root : String), ∀ r ∈ dbGetFullLineage db root, r.depth ≤ 10) ∧
    dbGetFullLineage cycDb "a" =
      [{ target_chunk_id := "b", depth := 1, parent_id := "a" },
       { target_chunk_id := "a", depth := 2, parent_id := "b" },
       { target_chunk_id := "b", depth := 3, parent_id := "a" },
       { target_chunk_id := "a", depth := 4, parent_id := "b" },
       { target_chunk_id := "b", depth := 5, parent_id := "a" },
       { target_chunk_id := "a", depth := 6, parent_id := "b" },
       { target_chunk_id := "b", depth := 7, parent_id := "a" },
       { target_chunk_id := "a", depth := 8, parent_id := "b" },
       { target_chunk_id := "b", depth := 9, parent_id := "a" },
       { target_chunk_id := "a", depth := 10, parent_id := "b" }] :=
  ⟨fun _ _ _ hr => (lineageRows_depth_bounds (mem_dbGetFullLineage.mp hr)).2,
   by decide⟩

/-- Witness for C3 at a concrete database and row. -/
theorem C3_cycle_truncated_witness :
    ({ target_chunk_id := "a", depth := 10, parent_id := "b" } : LineageRow).depth ≤ 10 :=
  C3_cycle_truncated.1 cycDb "a"
    { target_chunk_id := "a", depth := 10, parent_id := "b" } (by decide)

theorem charListLe_iff_not_lt :
    ∀ xs ys : List Char, charListLe xs ys = true ↔ ¬ys < xs := by
  intro xs
  induction xs with
  | nil =>
    intro ys
    constructor
    · intro _ hlt
      cases hlt
    · intro _
      rfl
  | cons c cs ih =>
    intro ys
    cases ys with
    | nil =>
      exact iff_of_false (by simp [charListLe]) (fun h => h List.Lex.nil)
    | cons d ds =>
      by_cases hcd : c = d
      · subst hcd
        have hred : charListLe (c :: cs) (c :: ds) = charListLe cs ds := by
          simp [charListLe]
        rw [hred, ih ds]
        constructor
        · intro h hlt
          cases hlt with
          | cons h3 => exact h h3
          | rel h2 => exact absurd h2 (lt_irrefl c)
        · intro h hlt
          exact h (List.Lex.cons hlt)
      · simp only [charListLe, if_neg hcd, decide_eq_true_eq]
        constructor
        · intro hlt2 hlt
          cases hlt with
          | cons h3 => exact hcd rfl
          | rel h2 => exact absurd hlt2 (lt_asymm h2)
        · intro h
          rcases lt_trichotomy c d with h1 | h1 | h1
          · exact h1
          · exact absurd h1 hcd
          · exact absurd (List.Lex.rel h1) h

/-- The BINARY-collation comparison used to model `ORDER BY
target_chunk_id` coincides with the lexicographic order on `String`. -/
theorem strLe_iff_le (a b : String) : strLe a b ↔ a ≤ b := by
  show charListLe a.data b.data = true ↔ a ≤ b
  rw [charListLe_iff_not_lt]
  exact not_congr String.lt_iff_toList_lt.symm

/-- C7: the flat list returned by the database-level `getFullLineage` is
sorted by depth ascending, with ties broken by `target_chunk_id` ascending
under the lexicographic string order (the `ORDER BY depth, target_chunk_id`
of the query), so the output order is deterministic. -/
theorem C7_lineage_sorted :
    ∀ (db : DB) (root : String),
      List.Sorted rowLe (dbGetFullLineage db root) ∧
      List.Pairwise
        (fun a b => a.depth < b.depth ∨
          (a.depth = b.depth ∧ a.target_chunk_id ≤ b.target_chunk_id))
        (dbGetFullLineage db root) := by
  intro db root
  have h := List.sorted_insertionSort rowLe (lineageRows db.citations root)
  refine ⟨h, List.Pairwise.imp ?_ h⟩
  intro a b hab
  rcases hab with h1 | ⟨h1, h2⟩
  · exact Or.inl h1
  · exact Or.inr ⟨h1, (strLe_iff_le _ _).mp h2⟩

/-- C4 counterexample: in the cyclic database `a ↔ b`, the flat result of
`getFullLineage(a)` contains the row `(b, depth 3, parent a)` whose parent
is the query root while its depth is 3 — so "depth equals 1 exactly when
the parent is the query root" fails. -/
theorem C4_root_parent_deep_counterexample :
    ({ target_chunk_id := "b", depth := 3, parent_id := "a" } : LineageRow) ∈
        dbGetFullLineage cycDb "a" ∧
      ¬(({ target_chunk_id := "b", depth := 3, parent_id := "a" } : LineageRow).depth = 1 ↔
        ({ target_chunk_id := "b", depth := 3, parent_id := "a" } : LineageRow).parent_id = "a") := by
  decide

/-- C4 amended: every depth-1 row has the query root as its parent, and
every deeper row has some row for its parent chunk at exactly one less
depth in the same result set; the converse of the first part (a row whose
parent is the root must have depth 1) fails when a cycle returns to the
root, as the counterexample shows. -/
theorem C4_depth_parent_amended :
    ∀ (db : DB) (root : String), ∀ r ∈ dbGetFullLineage db root,
      (r.depth = 1 → r.parent_id = root) ∧
      (r.depth ≠ 1 → ∃ r' ∈ dbGetFullLineage db root,
        r'.target_chunk_id = r.parent_id ∧ r'.depth + 1 = r.depth) := by
  intro db root r hr
  have hmem := mem_dbGetFullLineage.mp hr
  rcases lineageFuel_parent_link 10 (lineageBase db.citations root) r hmem with hb | ⟨r', hr', ht, hd⟩
  · rcases mem_lineageBase.mp hb with ⟨c, _, hs, hrEq⟩
    subst hrEq
    exact ⟨fun _ => hs, fun hne => absurd rfl hne⟩
  · have hd1 := (lineageRows_depth_bounds hr').1
    constructor
    · intro h1
      omega
    · intro _
      exact ⟨r', mem_dbGetFullLineage.mpr hr', ht, hd⟩

/-- Witness for the amended C4 at a concrete database and row. -/
theorem C4_depth_parent_amended_witness :
    ∃ r' ∈ dbGetFullLineage cycDb "a",
      r'.target_chunk_id =
          ({ target_chunk_id := "a", depth := 2, parent_id := "b" } : LineageRow).parent_id ∧
        r'.depth + 1 =
          ({ target_chunk_id := "a", depth := 2, parent_id := "b" } : LineageRow).depth :=
  (C4_depth_parent_amended cycDb "a"
      { target_chunk_id := "a", depth := 2, parent_id := "b" } (by decide)).2 (by decide)

/-! ### Lemmas about the node map operations -/

theorem assocGet_assocSet (m : List (String × LineageNodeRec)) (k : String)
    (v : LineageNodeRec) (t : String) :
    assocGet (assocSet m k v) t = if t = k then some v else assocGet m t := by
  induction m with
  | nil =>
    by_cases h : t = k
    · subst h; simp [assocSet, assocGet]
    · simp [assocSet, assocGet, h, Ne.symm h]
  | cons p ps ih =>
    by_cases hpk : p.1 = k
    · by_cases htk : t = k
      · subst htk
        simp [assocSet, assocGet, hpk]
      · simp [assocSet, assocGet, hpk, htk, Ne.symm htk,
          fun e : p.1 = t => htk (e.symm.trans hpk)]
    · by_cases hpt : p.1 = t
      · have htk : ¬t = k := fun e => hpk (hpt.trans e)
        simp [assocSet, assocGet, hpk, hpt, htk]
      · simp [assocSet, assocGet, hpk, hpt, ih]

theorem appendChild_cons (p : String × LineageNodeRec)
    (ps : List (String × LineageNodeRec)) (k c : String) :
    appendChild (p :: ps) k c =
      (if p.1 == k then (p.1, { p.2 with children := p.2.children ++ [c] }) else p) ::
        appendChild ps k c := by
  simp only [appendChild, List.map_cons]

theorem assocGet_appendChild (m : List (String × LineageNodeRec)) (k c t : String) :
    assocGet (appendChild m k c) t =
      if t = k then
        (assocGet m t).map (fun n => { n with children := n.children ++ [c] })
      else assocGet m t := by
  induction m with
  | nil => by_cases h : t = k <;> simp [appendChild, assocGet, h]
  | cons p ps ih =>
    rw [appendChild_cons]
    by_cases hpk : p.1 = k
    · by_cases htk : t = k
      · subst htk
        simp [assocGet, hpk]
      · simp [assocGet, hpk, htk, Ne.symm htk, ih,
          fun e : p.1 = t => htk (e.symm.trans hpk)]
    · by_cases hpt : p.1 = t
      · have htk : ¬t = k := fun e => hpk (hpt.trans e)
        simp [assocGet, hpk, hpt, htk]
      · simp [assocGet, hpk, hpt, ih]

theorem chunkProj_appendChild (m : List (String × LineageNodeRec)) (k c t : String) :
    (assocGet (appendChild m k c) t).map (fun n => n.chunk) =
      (assocGet m t).map (fun n => n.chunk) := by
  rw [assocGet_appendChild]
  by_cases h : t = k
  · rw [if_pos h]
    cases assocGet m t <;> simp
  · rw [if_neg h]

theorem isSome_appendChild (m : List (String × LineageNodeRec)) (k c t : String) :
    (assocGet (appendChild m k c) t).isSome = (assocGet m t).isSome := by
  rw [assocGet_appendChild]
  by_cases h : t = k
  · rw [if_pos h]; exact Option.isSome_map'
  · rw [if_neg h]

theorem children_appendChild {m : List (String × LineageNodeRec)} {k c t : String}
    {nr : LineageNodeRec} (h : assocGet (appendChild m k c) t = some nr) :
    ∃ nr0, assocGet m t = some nr0 ∧
      (nr.children = nr0.children ∨ nr.children = nr0.children ++ [c]) := by
  rw [assocGet_appendChild] at h
  by_cases ht : t = k
  · rw [if_pos ht] at h
    cases hm : assocGet m t with
    | none => rw [hm] at h; simp at h
    | some nr0 =>
      rw [hm] at h
      simp only [Option.map_some'] at h
      have h2 := Option.some.inj h
      subst h2
      exact ⟨nr0, rfl, Or.inr rfl⟩
  · rw [if_neg ht] at h
    exact ⟨nr, h, Or.inl rfl⟩

/-! ### Lemmas about the node-creation loop -/

theorem buildStep_of_none {db : DB} {row : LineageRow}
    (hg : getChunk db row.target_chunk_id = none)
    (m : List (String × LineageNodeRec)) : buildStep db m row = m := by
  unfold buildStep
  rw [hg]

theorem buildStep_of_some {db : DB} {row : LineageRow} {chunk : Chunk}
    (hg : getChunk db row.target_chunk_id = some chunk)
    (m : List (String × LineageNodeRec)) :
    buildStep db m row =
      assocSet m row.target_chunk_id
        { chunk_id := row.target_chunk_id
          depth := row.depth
          chunk := chunk
          children := [] } := by
  unfold buildStep
  rw [hg]

theorem nodesSound_buildStep {db : DB} {m : List (String × LineageNodeRec)}
    (h : nodesSound db m) (row : LineageRow) : nodesSound db (buildStep db m row) := by
  cases hg : getChunk db row.target_chunk_id with
  | none => rw [buildStep_of_none hg]; exact h
  | some chunk =>
    rw [buildStep_of_some hg]
    intro t nr hget
    rw [assocGet_assocSet] at hget
    by_cases ht : t = row.target_chunk_id
    · rw [if_pos ht] at hget
      cases hget
      exact ⟨ht.symm, by rw [ht, hg], rfl⟩
    · rw [if_neg ht] at hget
      exact h t nr hget

theorem nodesSound_foldl_buildStep {db : DB} :
    ∀ (rows : List LineageRow) (m : List (String × LineageNodeRec)),
      nodesSound db m → nodesSound db (rows.foldl (buildStep db) m) := by
  intro rows
  induction rows with
  | nil => intro m h; exact h
  | cons row rest ih =>
    intro m h
    rw [List.foldl_cons]
    exact ih _ (nodesSound_buildStep h row)

theorem nodesSound_buildNodes (db : DB) (rows : List LineageRow) :
    nodesSound db (buildNodes db rows) := by
  refine nodesSound_foldl_buildStep rows [] ?_
  intro t nr h
  simp [assocGet] at h

theorem buildNodes_none {db : DB} {rows : List LineageRow} {t : String}
    (h : getChunk db t = none) : assocGet (buildNodes db rows) t = none := by
  cases hg : assocGet (buildNodes db rows) t with
  | none => rfl
  | some nr =>
    have hs := (nodesSound_buildNodes db rows) t nr hg
    rw [h] at hs
    exact absurd hs.2.1 (by simp)

theorem foldl_buildStep_chunkProj (db : DB) :
    ∀ (rows : List LineageRow) (m : List (String × LineageNodeRec)) (t : String),
      nodesSound db m →
      (t ∈ rows.map (fun r => r.target_chunk_id) ∨
        (assocGet m t).map (fun n => n.chunk) = getChunk db t) →
      (assocGet (rows.foldl (buildStep db) m) t).map (fun n => n.chunk) = getChunk db t := by
  intro rows
  induction rows with
  | nil =>
    intro m t _ hmem
    rcases hmem with hmem | hmem
    · simp at hmem
    · exact hmem
  | cons row rest ih =>
    intro m t hs hmem
    rw [List.foldl_cons]
    refine ih _ t (nodesSound_buildStep hs row) ?_
    by_cases htr : t ∈ rest.map (fun r => r.target_chunk_id)
    · exact Or.inl htr
    · right
      have hcase : t = row.target_chunk_id ∨
          (assocGet m t).map (fun n => n.chunk) = getChunk db t := by
        rcases hmem with hm | hm
        · rw [List.map_cons, List.mem_cons] at hm
          rcases hm with h1 | h1
          · exact Or.inl h1
          · exact absurd h1 htr
        · exact Or.inr hm
      cases hg : getChunk db row.target_chunk_id with
      | none =>
        rw [buildStep_of_none hg]
        rcases hcase with hEq | hInv
        · cases hm2 : assocGet m t with
          | none => rw [Option.map_none', hEq, hg]
          | some nr =>
            exfalso
            have h3 := (hs t nr hm2).2.1
            rw [hEq, hg] at h3
            exact Option.noConfusion h3
        · exact hInv
      | some chunk =>
        rw [buildStep_of_some hg, assocGet_assocSet]
        by_cases ht2 : t = row.target_chunk_id
        · rw [if_pos ht2, ht2, hg]
          rfl
        · rw [if_neg ht2]
          rcases hcase with hEq | hInv
          · exact absurd hEq ht2
          · exact hInv

theorem buildNodes_chunkProj {db : DB} {rows : List LineageRow} {t : String}
    (ht : t ∈ rows.map (fun r => r.target_chunk_id)) :
    (assocGet (buildNodes db rows) t).map (fun n => n.chunk) = getChunk db t := by
  refine foldl_buildStep_chunkProj db rows [] t ?_ (Or.inl ht)
  intro t2 nr h
  simp [assocGet] at h

theorem buildNodes_isSome {db : DB} {rows : List LineageRow} {t : String}
    (ht : t ∈ rows.map (fun r => r.target_chunk_id)) :
    (assocGet (buildNodes db rows) t).isSome = (getChunk db t).isSome := by
  have h : (assocGet (buildNodes db rows) t).map (fun n => n.chunk) = getChunk db t :=
    buildNodes_chunkProj ht
  cases h1 : assocGet (buildNodes db rows) t <;> rw [h1] at h <;> rw [← h] <;> rfl

theorem foldl_buildStep_present_mem (db : DB) (T : List String) :
    ∀ (rows : List LineageRow) (m : List (String × LineageNodeRec)) (t : String),
      ((assocGet m t).isSome = true → t ∈ T) →
      (∀ r ∈ rows, r.target_chunk_id ∈ T) →
      (assocGet (rows.foldl (buildStep db) m) t).isSome = true → t ∈ T := by
  intro rows
  induction rows with
  | nil => intro m t hm _ h; exact hm h
  | cons row rest ih =>
    intro m t hm hT h
    rw [List.foldl_cons] at h
    refine ih _ t ?_ (fun r hr => hT r (List.mem_cons_of_mem _ hr)) h
    intro hstep
    cases hg : getChunk db row.target_chunk_id with
    | none => rw [buildStep_of_none hg] at hstep; exact hm hstep
    | some chunk =>
      rw [buildStep_of_some hg, assocGet_assocSet] at hstep
      by_cases ht2 : t = row.target_chunk_id
      · rw [ht2]; exact hT row (List.mem_cons_self row rest)
      · rw [if_neg ht2] at hstep
        exact hm hstep

theorem buildNodes_present_mem {db : DB} {rows : List LineageRow} {t : String}
    (h : (assocGet (buildNodes db rows) t).isSome = true) :
    t ∈ rows.map (fun r => r.target_chunk_id) := by
  refine foldl_buildStep_present_mem db _ rows [] t ?_ ?_ h
  · intro h0; simp [assocGet] at h0
  · intro r hr
    exact List.mem_map_of_mem _ hr

/-! ### Lemmas about the linking loop -/

theorem linkStep_skip {st : LineageForest} {row : LineageRow}
    (h : assocGet st.nodes row.target_chunk_id = none) : linkStep st row = st := by
  unfold linkStep
  rw [h]

theorem linkStep_root {st : LineageForest} {row : LineageRow} {nr : LineageNodeRec}
    (h : assocGet st.nodes row.target_chunk_id = some nr) (hd : row.depth = 1) :
    linkStep st row = { st with rootIds := st.rootIds ++ [row.target_chunk_id] } := by
  unfold linkStep
  rw [h, if_pos hd]

theorem linkStep_orphan {st : LineageForest} {row : LineageRow} {nr : LineageNodeRec}
    (h : assocGet st.nodes row.target_chunk_id = some nr) (hd : ¬row.depth = 1)
    (hp : assocGet st.nodes row.parent_id = none) : linkStep st row = st := by
  unfold linkStep
  rw [h, if_neg hd, hp]

theorem linkStep_child {st : LineageForest} {row : LineageRow} {nr np : LineageNodeRec}
    (h : assocGet st.nodes row.target_chunk_id = some nr) (hd : ¬row.depth = 1)
    (hp : assocGet st.nodes row.parent_id = some np) :
    linkStep st row =
      { st with nodes := appendChild st.nodes row.parent_id row.target_chunk_id } := by
  unfold linkStep
  rw [h, if_neg hd, hp]

theorem linkStep_nodes_chunkProj (st : LineageForest) (row : LineageRow) (t : String) :
    (assocGet (linkStep st row).nodes t).map (fun n => n.chunk) =
      (assocGet st.nodes t).map (fun n => n.chunk) := by
  cases h : assocGet st.nodes row.target_chunk_id with
  | none => rw [linkStep_skip h]
  | some nr =>
    by_cases hd : row.depth = 1
    · rw [linkStep_root h hd]
    · cases hp : assocGet st.nodes row.parent_id with
      | none => rw [linkStep_orphan h hd hp]
      | some np =>
        rw [linkStep_child h hd hp]
        exact chunkProj_appendChild st.nodes row.parent_id row.target_chunk_id t

theorem linkStep_nodes_isSome (st : LineageForest) (row : LineageRow) (t : String) :
    (assocGet (linkStep st row).nodes t).isSome = (assocGet st.nodes t).isSome := by
  have h := linkStep_nodes_chunkProj st row t
  cases h1 : assocGet (linkStep st row).nodes t <;>
    cases h2 : assocGet st.nodes t <;> rw [h1, h2] at h <;> simp_all

theorem linkFold_nodes_chunkProj :
    ∀ (rows : List LineageRow) (st : LineageForest) (t : String),
      (assocGet (rows.foldl linkStep st).nodes t).map (fun n => n.chunk) =
        (assocGet st.nodes t).map (fun n => n.chunk) := by
  intro rows
  induction rows with
  | nil => intro st t; rfl
  | cons row rest ih =>
    intro st t
    rw [List.foldl_cons, ih, linkStep_nodes_chunkProj]

theorem linkFold_nodes_isSome (rows : List LineageRow) (st : LineageForest) (t : String) :
    (assocGet (rows.foldl linkStep st).nodes t).isSome = (assocGet st.nodes t).isSome := by
  have h := linkFold_nodes_chunkProj rows st t
  cases h1 : assocGet (rows.foldl linkStep st).nodes t <;>
    cases h2 : assocGet st.nodes t <;> rw [h1, h2] at h <;> simp_all

theorem linkFold_rootIds :
    ∀ (rows : List LineageRow) (st : LineageForest),
      (rows.foldl linkStep st).rootIds =
        st.rootIds ++ rows.filterMap (fun r =>
          if (assocGet st.nodes r.target_chunk_id).isSome = true ∧ r.depth = 1
          then some r.target_chunk_id else none) := by
  intro rows
  induction rows with
  | nil => intro st; simp
  | cons row rest ih =>
    intro st
    rw [List.foldl_cons, ih, List.filterMap_cons]
    have hcongr : (rest.filterMap (fun r =>
        if (assocGet (linkStep st row).nodes r.target_chunk_id).isSome = true ∧ r.depth = 1
        then some r.target_chunk_id else none)) =
        rest.filterMap (fun r =>
          if (assocGet st.nodes r.target_chunk_id).isSome = true ∧ r.depth = 1
          then some r.target_chunk_id else none) := by
      apply List.filterMap_congr
      intro r _
      rw [linkStep_nodes_isSome]
    rw [hcongr]
    cases h : assocGet st.nodes row.target_chunk_id with
    | none =>
      rw [linkStep_skip h]
      simp
    | some nr =>
      by_cases hd : row.depth = 1
      · rw [linkStep_root h hd]
        simp [hd, List.append_assoc]
      · cases hp : assocGet st.nodes row.parent_id with
        | none =>
          rw [linkStep_orphan h hd hp]
          simp [hd]
        | some np =>
          rw [linkStep_child h hd hp]
          simp [hd]

theorem rootChunks_linkRows (n : List (String × LineageNodeRec))
    (rows : List LineageRow) :
    rootChunks (linkRows n rows) =
      rows.filterMap (fun r =>
        if r.depth = 1 then (assocGet n r.target_chunk_id).map (fun x => x.chunk)
        else none) := by
  unfold rootChunks linkRows
  rw [linkFold_rootIds]
  simp only [List.nil_append]
  have hproj : ∀ i ∈ rows.filterMap (fun r =>
      if (assocGet n r.target_chunk_id).isSome = true ∧ r.depth = 1
      then some r.target_chunk_id else none),
      (assocGet (List.foldl linkStep { rootIds := [], nodes := n } rows).nodes i).map
          (fun x => x.chunk) =
        (assocGet n i).map (fun x => x.chunk) := by
    intro i _
    exact linkFold_nodes_chunkProj rows { rootIds := [], nodes := n } i
  rw [List.filterMap_congr hproj, List.filterMap_filterMap]
  apply List.filterMap_congr
  intro r _
  by_cases hd : r.depth = 1
  · cases hs : assocGet n r.target_chunk_id with
    | none => simp [hd, hs]
    | some nr => simp [hd, hs]
  · simp [hd]

theorem filterMap_depth_one_lineageRows {α : Type} (edges : List CitationRow)
    (root : String) (g : LineageRow → Option α) :
    (lineageRows edges root).filterMap
        (fun r => if r.depth = 1 then g r else none) =
      (lineageBase edges root).filterMap g := by
  show (lineageFuel edges 10 (lineageBase edges root)).filterMap _ = _
  rw [show lineageFuel edges 10 (lineageBase edges root) =
      lineageBase edges root ++
        lineageFuel edges 9 (lineageStep edges (lineageBase edges root)) from rfl,
    List.filterMap_append]
  have hrest : (lineageFuel edges 9 (lineageStep edges (lineageBase edges root))).filterMap
      (fun r => if r.depth = 1 then g r else none) = [] := by
    rw [List.filterMap_eq_nil_iff]
    intro r hr
    have h2 : 2 ≤ r.depth := by
      refine lineageFuel_depth_lower 9 _ ?_ r hr
      intro l hl
      rcases mem_lineageStep.mp hl with ⟨l', hl', _, hc⟩
      have := depth_of_mem_childRows hc
      have := depth_one_of_mem_lineageBase hl'
      omega
    rw [if_neg (by omega)]
  rw [hrest, List.append_nil]
  apply List.filterMap_congr
  intro r hr
  rw [if_pos (depth_one_of_mem_lineageBase hr)]

theorem rootChunks_serverGetFullLineage (db : DB) (chunkId : String) :
    rootChunks (serverGetFullLineage db chunkId) =
      (dbGetFullLineage db chunkId).filterMap
        (fun r => if r.depth = 1 then getChunk db r.target_chunk_id else none) := by
  show rootChunks
      (linkRows (buildNodes db (dbGetFullLineage db chunkId))
        (dbGetFullLineage db chunkId)) = _
  rw [rootChunks_linkRows]
  apply List.filterMap_congr
  intro r hr
  by_cases hd : r.depth = 1
  · rw [if_pos hd, if_pos hd]
    exact buildNodes_chunkProj (List.mem_map_of_mem _ hr)
  · rw [if_neg hd, if_neg hd]

theorem serverGetDirectCitations_eq_filterMap (db : DB) (chunkId : String) :
    serverGetDirectCitations db chunkId =
      (dbGetDirectCitations db chunkId).filterMap
        (fun c => getChunk db c.target_chunk_id) := by
  have key : ∀ (l : List Citation) (acc : List Chunk),
      l.foldl
        (fun chunks citation =>
          match getChunk db citation.target_chunk_id with
          | some chunk => chunks ++ [chunk]
          | none => chunks) acc =
        acc ++ l.filterMap (fun c => getChunk db c.target_chunk_id) := by
    intro l
    induction l with
    | nil => intro acc; simp
    | cons c rest ih =>
      intro acc
      rw [List.foldl_cons, List.filterMap_cons]
      cases h : getChunk db c.target_chunk_id with
      | none => simp only [h]; exact ih acc
      | some chunk => simp only [h, ih, List.append_assoc, List.singleton_append]
  show (dbGetDirectCitations db chunkId).foldl _ [] = _
  rw [key, List.nil_append]

theorem direct_eq_base_filterMap (db : DB) (chunkId : String) :
    serverGetDirectCitations db chunkId =
      (lineageBase db.citations chunkId).filterMap
        (fun r => getChunk db r.target_chunk_id) := by
  rw [serverGetDirectCitations_eq_filterMap]
  unfold dbGetDirectCitations lineageBase
  rw [List.filterMap_map, List.filterMap_map]
  rfl

theorem enrichedChunksInStoredOrder_eq_filterMap (db : DB) :
    ∀ l : List Citation,
      enrichedChunksInStoredOrder db l =
        l.filterMap (fun c => getChunk db c.target_chunk_id) := by
  intro l
  induction l with
  | nil => rfl
  | cons c rest ih =>
    rw [List.filterMap_cons]
    cases h : getChunk db c.target_chunk_id with
    | none => simp only [enrichedChunksInStoredOrder, h, ih]
    | some chunk => simp only [enrichedChunksInStoredOrder, h, ih]

/-! ### Claims about the server actions -/

/-- C10: the server action `getDirectCitations` returns the enriched chunk
records of the chunk's citation rows in stored row order, silently omitting
every citation whose target chunk id is absent from the content store and
leaving the remaining results unaffected. -/
theorem C10_direct_citations_enriched :
    ∀ (db : DB) (chunkId : String),
      serverGetDirectCitations db chunkId =
        enrichedChunksInStoredOrder db (dbGetDirectCitations db chunkId) := by
  intro db chunkId
  rw [serverGetDirectCitations_eq_filterMap, enrichedChunksInStoredOrder_eq_filterMap]

/-- C5 counterexample: in `orderDb` the citation rows of `x` are stored as
`x → b` then `x → a`, so `getDirectCitations(x)` returns `[b, a]` while the
depth-1 level of `getFullLineage(x)` is sorted by target id and yields
`[a, b]` — the same chunks, but not in the same order. -/
theorem C5_order_counterexample :
    serverGetDirectCitations orderDb "x" = [testChunk "b" 0, testChunk "a" 0] ∧
      rootChunks (serverGetFullLineage orderDb "x") =
        [testChunk "a" 0, testChunk "b" 0] ∧
      serverGetDirectCitations orderDb "x" ≠
        rootChunks (serverGetFullLineage orderDb "x") := by
  exact ⟨by decide, by decide, by decide⟩

/-- C5 amended: `getDirectCitations(X)` consists of exactly the same chunks
as the depth-1 level of `getFullLineage(X)` — a permutation — but the
orders differ in general: the former is in stored citation-row order, the
latter sorted by `target_chunk_id`. -/
theorem C5_direct_citations_perm_depth_one :
    ∀ (db : DB) (chunkId : String),
      List.Perm (serverGetDirectCitations db chunkId)
        (rootChunks (serverGetFullLineage db chunkId)) := by
  intro db chunkId
  rw [rootChunks_serverGetFullLineage]
  have h3 : (lineageRows db.citations chunkId).filterMap
      (fun r => if r.depth = 1 then getChunk db r.target_chunk_id else none) =
      serverGetDirectCitations db chunkId := by
    rw [filterMap_depth_one_lineageRows, direct_eq_base_filterMap]
  rw [← h3]
  show List.Perm _ ((List.insertionSort rowLe (lineageRows db.citations chunkId)).filterMap _)
  exact ((List.perm_insertionSort rowLe (lineageRows db.citations chunkId)).filterMap _).symm

/-- C1: evaluation of the server `getFullLineage` on the database in which
`z` is cited both directly by the root `x` and by the intermediate chunk
`y`.  The assembled forest holds a single node for `z` (the node map is
keyed by chunk id), shared between the root level and `y`'s children, and
its depth is 2 — the direct-citation occurrence of `z` does not appear as a
separate node with the depth 1 of its own path, contradicting the claim. -/
theorem C1_merged_occurrence :
    (serverGetFullLineage mergeDb "x").rootIds = ["y", "z"] ∧
      (assocGet (serverGetFullLineage mergeDb "x").nodes "z").map (fun n => n.depth) =
        some 2 ∧
      (assocGet (serverGetFullLineage mergeDb "x").nodes "y").map (fun n => n.children) =
        some ["z"] := by
  exact ⟨by decide, by decide, by decide⟩

/-- C6 counterexample: in `dangDb` the edge `a → b` dangles (`b` has no
content row) while `b → c` leads to the resolvable chunk `c`; the flat
traversal reaches `c`, but the assembled forest of `getFullLineage(a)` is
empty — the unresolvable node is not the only node omitted. -/
theorem C6_resolvable_dropped_counterexample :
    getChunk dangDb "b" = none ∧
      getChunk dangDb "c" = some (testChunk "c" 0) ∧
      ({ target_chunk_id := "c", depth := 2, parent_id := "b" } : LineageRow) ∈
        dbGetFullLineage dangDb "a" ∧
      (serverGetFullLineage dangDb "a").rootIds = [] := by
  exact ⟨by decide, by decide, by decide, by decide⟩

theorem linkFold_no_missing_child (m : String) :
    ∀ (rows : List LineageRow) (st : LineageForest),
      assocGet st.nodes m = none →
      (∀ k nr, assocGet st.nodes k = some nr → m ∉ nr.children) →
      ∀ k nr, assocGet (rows.foldl linkStep st).nodes k = some nr → m ∉ nr.children := by
  intro rows
  induction rows with
  | nil => intro st _ hch; exact hch
  | cons row rest ih =>
    intro st hm hch
    rw [List.foldl_cons]
    refine ih _ ?_ ?_
    · have hiso := linkStep_nodes_isSome st row m
      rw [hm] at hiso
      cases h2 : assocGet (linkStep st row).nodes m with
      | none => rfl
      | some v => rw [h2] at hiso; simp at hiso
    · intro k nr hk
      cases h : assocGet st.nodes row.target_chunk_id with
      | none =>
        rw [linkStep_skip h] at hk
        exact hch k nr hk
      | some nr2 =>
        by_cases hd : row.depth = 1
        · rw [linkStep_root h hd] at hk
          exact hch k nr hk
        · cases hp : assocGet st.nodes row.parent_id with
          | none =>
            rw [linkStep_orphan h hd hp] at hk
            exact hch k nr hk
          | some np =>
            rw [linkStep_child h hd hp] at hk
            rcases children_appendChild hk with ⟨nr0, hget0, he | he⟩
            · rw [he]
              exact hch k nr0 hget0
            · rw [he]
              intro hmm
              rcases List.mem_append.mp hmm with h1 | h1
              · exact hch k nr0 hget0 h1
              · have hmt : m = row.target_chunk_id := by simpa using h1
                rw [hmt] at hm
                exact Option.noConfusion (hm.symm.trans h)

/-- C6 amended: a chunk id absent from the content store never appears in
the assembled forest of the server `getFullLineage` — it has no node, is
never a root, and is never any node's child; however (as the counterexample
shows) chunks whose provenance paths pass only through such a dangling node
are dropped along with it, so the forest may omit more than that one node. -/
theorem C6_missing_node_omitted :
    ∀ (db : DB) (root m : String), getChunk db m = none →
      assocGet (serverGetFullLineage db root).nodes m = none ∧
      m ∉ (serverGetFullLineage db root).rootIds ∧
      (∀ k nr, assocGet (serverGetFullLineage db root).nodes k = some nr →
        m ∉ nr.children) := by
  intro db root m hm
  have hn : assocGet (buildNodes db (dbGetFullLineage db root)) m = none :=
    buildNodes_none hm
  refine ⟨?_, ?_, ?_⟩
  · show assocGet
        (linkRows (buildNodes db (dbGetFullLineage db root))
          (dbGetFullLineage db root)).nodes m = none
    unfold linkRows
    have hiso := linkFold_nodes_isSome (dbGetFullLineage db root)
      { rootIds := [], nodes := buildNodes db (dbGetFullLineage db root) } m
    rw [show ({ rootIds := [], nodes := buildNodes db (dbGetFullLineage db root) } :
        LineageForest).nodes = buildNodes db (dbGetFullLineage db root) from rfl, hn] at hiso
    cases h2 : assocGet (List.foldl linkStep _ _).nodes m with
    | none => rfl
    | some v => rw [h2] at hiso; simp at hiso
  · intro hmem
    have : m ∈ (linkRows (buildNodes db (dbGetFullLineage db root))
        (dbGetFullLineage db root)).rootIds := hmem
    unfold linkRows at this
    rw [linkFold_rootIds] at this
    rw [List.nil_append] at this
    rcases List.mem_filterMap.mp this with ⟨r, _, hpred⟩
    by_cases hc : (assocGet (buildNodes db (dbGetFullLineage db root))
        r.target_chunk_id).isSome = true ∧ r.depth = 1
    · rw [if_pos hc] at hpred
      have hrt := Option.some.inj hpred
      rw [hrt] at hc
      rw [hn] at hc
      simp at hc
    · rw [if_neg hc] at hpred
      exact Option.noConfusion hpred
  · show ∀ k nr, assocGet
        (linkRows (buildNodes db (dbGetFullLineage db root))
          (dbGetFullLineage db root)).nodes k = some nr → m ∉ nr.children
    unfold linkRows
    refine linkFold_no_missing_child m (dbGetFullLineage db root) _ hn ?_
    intro k nr hk
    rw [(nodesSound_buildNodes db (dbGetFullLineage db root) k nr hk).2.2]
    exact List.not_mem_nil m

/-- Witness for the amended C6 at a concrete database. -/
theorem C6_missing_node_omitted_witness :
    assocGet (serverGetFullLineage dangDb "a").nodes "b" = none ∧
      "b" ∉ (serverGetFullLineage dangDb "a").rootIds ∧
      (∀ k nr, assocGet (serverGetFullLineage dangDb "a").nodes k = some nr →
        "b" ∉ nr.children) :=
  C6_missing_node_omitted dangDb "a" "b" (by decide)

theorem linkFold_filter_orphans (T : List String) :
    ∀ (rows : List LineageRow) (st : LineageForest),
      (∀ t, (assocGet st.nodes t).isSome = true → t ∈ T) →
      rows.foldl linkStep st =
        (rows.filter (fun r => r.depth == 1 || decide (r.parent_id ∈ T))).foldl
          linkStep st := by
  intro rows
  induction rows with
  | nil => intro st _; rfl
  | cons row rest ih =>
    intro st hsub
    rw [List.foldl_cons, List.filter_cons]
    by_cases hkeep : (row.depth == 1 || decide (row.parent_id ∈ T)) = true
    · rw [if_pos hkeep, List.foldl_cons]
      refine ih (linkStep st row) ?_
      intro t ht
      rw [linkStep_nodes_isSome] at ht
      exact hsub t ht
    · rw [if_neg hkeep]
      have hd : ¬row.depth = 1 := by
        intro h1
        exact hkeep (by simp [h1])
      have hpar : row.parent_id ∉ T := by
        intro h1
        exact hkeep (by simp [h1])
      have hstep : linkStep st row = st := by
        cases h : assocGet st.nodes row.target_chunk_id with
        | none => exact linkStep_skip h
        | some nr =>
          cases hp : assocGet st.nodes row.parent_id with
          | none => exact linkStep_orphan h hd hp
          | some np =>
            exact absurd (hsub row.parent_id (by rw [hp]; rfl)) hpar
      rw [hstep]
      exact ih st hsub

/-- C9: the linking phase of the server `getFullLineage` ignores orphaned
entries — rows whose declared parent id has no entry anywhere in the flat
list (and which are not depth-1 roots) — so assembling the full list yields
exactly the same forest as assembling the list with the orphans removed:
each orphan is dropped, nothing crashes (the function is total), and all
other entries are assembled as usual. -/
theorem C9_orphans_dropped :
    ∀ (db : DB) (rows : List LineageRow),
      linkRows (buildNodes db rows) rows =
        linkRows (buildNodes db rows)
          (rows.filter (fun r =>
            r.depth == 1 ||
              decide (r.parent_id ∈ rows.map (fun r2 => r2.target_chunk_id)))) := by
  intro db rows
  unfold linkRows
  exact linkFold_filter_orphans _ rows _ (fun t ht => buildNodes_present_mem ht)

/-! ### The raw-chunks-are-leaves invariant -/

/-- C8: raw chunks are leaves of the citation graph.  In the seeded
database every stage-0 chunk has an empty set of outgoing citation edges;
and for the spec-modelled `addEdge` (the repository has no edge-write path
in code), an insertion whose source resolves to a stage-0 chunk fails with
`RawChunkCitesError` whenever its ids resolve (per spec §4.2 the
invalid-reference check precedes the raw-cites check), and never succeeds
regardless of the target. -/
theorem C8_raw_leaves :
    (∀ c ∈ seedDb.content, c.stage = 0 →
      dbGetDirectCitations seedDb c.chunk_id = []) ∧
    (∀ (db : DB) (s t m : String) (chunk : Chunk),
      getChunk db s = some chunk → chunk.stage = 0 →
      (getChunk db t).isSome = true →
      addEdge db s t m = Except.error EdgeError.rawChunkCites) ∧
    (∀ (db : DB) (s t m : String) (chunk : Chunk) (db2 : DB),
      getChunk db s = some chunk → chunk.stage = 0 →
      addEdge db s t m ≠ Except.ok db2) := by
  refine ⟨by decide, ?_, ?_⟩
  · intro db s t m chunk hs h0 ht
    unfold addEdge
    rw [hs]
    cases hgt : getChunk db t with
    | none => rw [hgt] at ht; simp at ht
    | some c2 => simp [h0]
  · intro db s t m chunk db2 hs h0
    unfold addEdge
    rw [hs]
    cases hgt : getChunk db t with
    | none => simp
    | some c2 => simp [h0]

set_option maxRecDepth 40000 in
/-- Witness for C8 at the seeded database: the first seeded raw chunk has no
outgoing edges, and inserting an edge with it as source fails with
`RawChunkCitesError`. -/
theorem C8_raw_leaves_witness :
    dbGetDirectCitations seedDb "raw_market_survey_chunk_1" = [] ∧
      addEdge seedDb "raw_market_survey_chunk_1" "ins_market_trends_chunk_1" "[9]" =
        Except.error EdgeError.rawChunkCites := by
  constructor
  · exact C8_raw_leaves.1
      { chunk_id := "raw_market_survey_chunk_1",
        text := "Q3 2024 market survey reveals 78% adoption rate of AI-powered analytics tools across enterprise segments, up from 52% in Q2 2024. Survey methodology: 500 enterprise decision-makers across technology, finance, and healthcare sectors.",
        stage := 0,
        type := "raw",
        author := none,
        created_at := some "2024-10-15T09:00:00Z",
        source_title := some "Enterprise AI Adoption Survey Q3 2024",
        status := some "published" }
      (by decide) rfl
  · exact C8_raw_leaves.2.1 seedDb "raw_market_survey_chunk_1"
      "ins_market_trends_chunk_1" "[9]"
      { chunk_id := "raw_market_survey_chunk_1",
        text := "Q3 2024 market survey reveals 78% adoption rate of AI-powered analytics tools across enterprise segments, up from 52% in Q2 2024. Survey methodology: 500 enterprise decision-makers across technology, finance, and healthcare sectors.",
        stage := 0,
        type := "raw",
        author := none,
        created_at := some "2024-10-15T09:00:00Z",
        source_title := some "Enterprise AI Adoption Survey Q3 2024",
        status := some "published" }
      (by decide) rfl (by decide)

end TraceDemo
